import Mathlib

/-
A verification development for the `encode` Go package: a composable binary
encoding toolkit (codec items sequenced by a composer), whose core is the
order-preserving variable-length unsigned integer codec `ordUvarint64`.

The Go source is shallowly embedded: machine integers become `Nat` with
explicit `% 2 ^ w` where overflow matters, byte buffers become `List Nat`
(entries are byte values `< 256`), mutation of a caller-owned buffer becomes
the list of final buffer contents, mutation of bound value cells becomes
explicit store passing, and fallible decoding returns `Except`.
-/

namespace Encode

/-- The two error values of the package: `io.ErrUnexpectedEOF` and
`errOverflowVarint`. -/
inductive Err where
  | unexpectedEOF
  | overflowVarint
deriving DecidableEq, Repr

instance {ε α : Type} [DecidableEq ε] [DecidableEq α] : DecidableEq (Except ε α) := fun a b =>
  match a, b with
  | .ok x, .ok y =>
    if h : x = y then isTrue (congrArg Except.ok h) else isFalse (fun hh => h (Except.ok.inj hh))
  | .error x, .error y =>
    if h : x = y then isTrue (congrArg Except.error h)
    else isFalse (fun hh => h (Except.error.inj hh))
  | .ok _, .error _ => isFalse (fun hh => Except.noConfusion hh)
  | .error _, .ok _ => isFalse (fun hh => Except.noConfusion hh)

/-! ### Machine-level helpers (Go byte and uint64 arithmetic) -/

/-- Go shift-left on a `byte`: any shift count `≥ 8` yields `0`, otherwise the
result is truncated to 8 bits. -/
def byteShl (x n : Nat) : Nat :=
  if 8 ≤ n then 0 else x * 2 ^ n % 256

/-- Go subtraction on a `byte`: wraps modulo 256. -/
def byteSub (a b : Nat) : Nat :=
  (a + 256 - b % 256) % 256

/-- Go bitwise complement `^b` on a `byte`. -/
def byteNot (b : Nat) : Nat :=
  255 - b % 256

/-- Go conversion `uint(i)` of a (possibly negative) `int` to a 64-bit
unsigned integer: two's-complement wrap modulo `2 ^ 64`. -/
def toUint64 (i : Int) : Nat :=
  (i % ((2 ^ 64 : Nat) : Int)).toNat

/-- Bit length of `v` computed with `f` halving steps:
`len64Aux 64` models Go `bits.Len64` (exact for every `uint64`), and
`len64Aux 8` models Go `bits.Len8`. Structural recursion on the fuel keeps the
definition kernel-reducible. -/
def len64Aux : Nat → Nat → Nat
  | 0, _ => 0
  | f + 1, v => if v = 0 then 0 else len64Aux f (v / 2) + 1

/-- Go `bits.Len64`: the number of bits required to represent `v`. -/
def len64 (v : Nat) : Nat := len64Aux 64 v

/-- Go `bits.Len8`. -/
def len8 (v : Nat) : Nat := len64Aux 8 v

/-- Go `bits.LeadingZeros8 x = 8 - bits.Len8 x`. -/
def leadingZeros8 (v : Nat) : Nat := 8 - len8 v

/-- The contents of an `n`-byte buffer holding `x` in big-endian byte order
(the result of `binary.BigEndian.PutUintNN`): byte `i` is `byte(x >> 8*(n-1-i))`. -/
def natToBytesBE (n x : Nat) : List Nat :=
  (List.range n).map (fun i => x / 2 ^ (8 * (n - 1 - i)) % 256)

/-- Go `binary.BigEndian.UintNN` over a byte list: big-endian accumulation. -/
def bytesToNatBE (bs : List Nat) : Nat :=
  bs.foldl (fun acc b => acc * 256 + b) 0

/-- `lexLtb a b = true` iff `bytes.Compare a b < 0`: strict lexicographic order
on byte strings, a proper prefix being smaller. -/
def lexLtb : List Nat → List Nat → Bool
  | _, [] => false
  | [], _ :: _ => true
  | a :: as, b :: bs => if a < b then true else if b < a then false else lexLtb as bs

/-- Go `copy(dst, src)`: the new contents of `dst` after copying
`min (len dst) (len src)` bytes from the front of `src` over the front of `dst`. -/
def goCopy (dst src : List Nat) : List Nat :=
  src.take dst.length ++ dst.drop (min dst.length src.length)

/-! ### Conventional (non-ordered) varints: `binary.PutUvarint` / `binary.Uvarint` -/

/-- Loop body of Go `binary.PutUvarint`: while `x >= 0x80` emit
`byte(x) | 0x80` and shift right by 7; finally emit `byte(x)`. The fuel bounds
the loop, which for every `uint64` input runs fewer than 10 times. -/
def putUvarintAux : Nat → Nat → List Nat
  | 0, x => [x]
  | f + 1, x => if x < 128 then [x] else (x % 128 + 128) :: putUvarintAux f (x / 128)

/-- Go `binary.PutUvarint` (the bytes it writes), with fuel
`binary.MaxVarintLen64 = 10`. -/
def putUvarint (x : Nat) : List Nat := putUvarintAux 10 x

/-- The package's `uvarintSize`: the number of bytes `PutUvarint` writes. -/
def uvarintSize (x : Nat) : Nat := (putUvarint x).length

/-- Go `binary.Uvarint` loop: arguments are the remaining buffer, the
accumulator `x`, the shift `s` and the index `i`. Returns `(value, n)` where
`n > 0` is the number of bytes read, `n = 0` means the buffer was too small
and `n < 0` means overflow (more than `MaxVarintLen64 = 10` bytes, or a 10th
byte above 1). Shifts are `uint64` operations, hence the `% 2 ^ 64`. -/
def uvarintAux : List Nat → Nat → Nat → Nat → Nat × Int
  | [], _, _, _ => (0, 0)
  | b :: rest, x, s, i =>
    if i = 10 then (0, -((i : Int) + 1))
    else if b < 128 then
      if i = 9 ∧ 1 < b then (0, -((i : Int) + 1))
      else (x ||| (b <<< s) % 2 ^ 64, (i : Int) + 1)
    else uvarintAux rest (x ||| ((b &&& 127) <<< s) % 2 ^ 64) (s + 7) (i + 1)

/-- Go `binary.Uvarint`. -/
def uvarint (buf : List Nat) : Nat × Int := uvarintAux buf 0 0 0

/-! ### The order-preserving unsigned varint codec `ordUvarint64` -/

/-- `ordUvarint64.Size`: 9 bytes for values of more than 56 bits, otherwise
`1 + (l-1)/7`. (For `l = 0` Go computes `(0-1)/7 = 0` by truncating toward
zero, and `Nat` subtraction gives the same byte count 1.) -/
def ordUvarint64Size (v : Nat) : Nat :=
  if 56 < len64 v then 9 else 1 + (len64 v - 1) / 7

/-- `ordUvarint64.Encode`, as the final contents of the zero-initialised
buffer of `ordUvarint64Size v` bytes the composer hands it. For `l > 56` it
writes the escape marker `0xFF` followed by the 8 big-endian bytes of `v`.
Otherwise `buf[0]` is set to the unary-length header
`((1 << nLeadingOnes) - 1) << (8-nLeadingOnes)` (computed in Go `byte` and
`uint` arithmetic: for `v = 0`, `nBytes = 0` makes `nLeadingOnes = -1`, the
shifts wrap and the header byte is `0`), and the big-endian chunks
`byte(v >> 8*(nBytes-i-1))` are or-ed into bytes `i < nBytes`; every other
byte of the buffer keeps its zero. -/
def ordUvarint64Encode (v : Nat) : List Nat :=
  if 56 < len64 v then
    255 :: natToBytesBE 8 v
  else
    (List.range (ordUvarint64Size v)).map (fun i =>
      (if i = 0 then
          byteShl
            (byteSub (byteShl 1 (toUint64 ((((len64 v + 6) / 7 : Nat) : Int) - 1))) 1)
            (toUint64 (8 - ((((len64 v + 6) / 7 : Nat) : Int) - 1)))
        else 0) |||
        (if i < (len64 v + 6) / 7 then v / 2 ^ (8 * ((len64 v + 6) / 7 - i - 1)) % 256 else 0))

/-- `ordUvarint64.Decode`: count the leading ones of `buf[0]` via
`bits.LeadingZeros8(^buf[0])`; `0xFF` (`rBits = 63`) selects the escape form
(8 further big-endian bytes); otherwise `nBytes` bytes are accumulated and the
result is masked to the low `rBits` bits. The shift `rBytes*8 - i*8 - 8` is
non-negative whenever Go reaches it, so `Nat` subtraction is faithful. -/
def ordUvarint64Decode (buf : List Nat) : Except Err Nat :=
  if buf.length < 1 then .error .unexpectedEOF
  else
    let nBytes := leadingZeros8 (byteNot (buf.getD 0 0)) + 1
    if nBytes * 7 = 63 then
      if buf.length < 9 then .error .unexpectedEOF
      else .ok (bytesToNatBE ((buf.drop 1).take 8))
    else
      if buf.length < nBytes then .error .unexpectedEOF
      else
        .ok
          (((List.range nBytes).foldl
            (fun r i => r ||| buf.getD i 0 <<< ((nBytes * 7 + 8) / 8 * 8 - i * 8 - 8))
            0) &&&
          (1 <<< (nBytes * 7) - 1))

/-! ### Arithmetic and bit-level helper lemmas -/

theorem lor_mul_pow_add {a k b : Nat} (h : b < 2 ^ k) :
    a * 2 ^ k ||| b = a * 2 ^ k + b := by
  apply Nat.eq_of_testBit_eq
  intro j
  rw [Nat.mul_comm a (2 ^ k), Nat.testBit_or, Nat.testBit_mul_pow_two,
    Nat.testBit_mul_pow_two_add a h j]
  by_cases hj : j < k
  · simp [hj, Nat.not_le_of_lt hj]
  · have hk : 2 ^ k ≤ 2 ^ j := Nat.pow_le_pow_right (by omega) (by omega)
    simp [hj, Nat.le_of_not_lt hj, Nat.testBit_lt_two_pow (Nat.lt_of_lt_of_le h hk)]

theorem mod_pow_div {x i j : Nat} : x % 2 ^ (i + j) / 2 ^ i = x / 2 ^ i % 2 ^ j := by
  rw [Nat.pow_add, Nat.mod_mul, Nat.add_mul_div_left _ _ (Nat.two_pow_pos i),
    Nat.div_eq_of_lt (Nat.mod_lt _ (Nat.two_pow_pos i)), Nat.zero_add]

theorem len64Aux_le (f v : Nat) : len64Aux f v ≤ f := by
  induction f generalizing v with
  | zero => simp [len64Aux]
  | succ f ih =>
    simp only [len64Aux]
    split
    · omega
    · have := ih (v / 2)
      omega

theorem len64Aux_le_iff {f k : Nat} (v : Nat) (hk : k < f) :
    len64Aux f v ≤ k ↔ v < 2 ^ k := by
  induction f generalizing v k with
  | zero => omega
  | succ f ih =>
    simp only [len64Aux]
    split
    · rename_i h
      subst h
      simp [Nat.two_pow_pos]
    · rename_i h
      cases k with
      | zero =>
        simp only [Nat.pow_zero]
        constructor <;> intro <;> omega
      | succ k =>
        rw [Nat.succ_le_succ_iff, ih (v / 2) (by omega), Nat.pow_succ]
        exact Nat.div_lt_iff_lt_mul (by omega)

theorem len64_le_iff {k : Nat} (v : Nat) (hk : k < 64) : len64 v ≤ k ↔ v < 2 ^ k :=
  len64Aux_le_iff v hk

theorem len64_le (v : Nat) : len64 v ≤ 64 := len64Aux_le 64 v

theorem lt_two_pow_len64 {v : Nat} (hv : v < 2 ^ 64) : v < 2 ^ len64 v := by
  rcases Nat.lt_or_ge (len64 v) 64 with h | h
  · exact (len64_le_iff v h).mp (Nat.le_refl _)
  · exact Nat.lt_of_lt_of_le hv (Nat.pow_le_pow_right (by omega) h)

theorem len64_eq_zero_iff (v : Nat) : len64 v = 0 ↔ v = 0 := by
  rw [← Nat.le_zero, len64_le_iff v (by omega)]
  omega

theorem two_pow_len64_pred_le {v : Nat} (hv : v ≠ 0) : 2 ^ (len64 v - 1) ≤ v := by
  have h0 : len64 v ≠ 0 := fun h => hv ((len64_eq_zero_iff v).mp h)
  have h1 : ¬ len64 v ≤ len64 v - 1 := by omega
  have h2 : len64 v - 1 < 64 := by have := len64_le v; omega
  rw [len64_le_iff v h2] at h1
  omega

/-! ### Lemmas about big-endian byte lists -/

theorem natToBytesBE_length (n x : Nat) : (natToBytesBE n x).length = n := by
  simp [natToBytesBE]

theorem natToBytesBE_succ (n x : Nat) :
    natToBytesBE (n + 1) x = x / 2 ^ (8 * n) % 256 :: natToBytesBE n x := by
  unfold natToBytesBE
  rw [List.range_succ_eq_map, List.map_cons, List.map_map]
  refine congrArg₂ _ (by norm_num) (List.map_congr_left ?_)
  intro i _
  show x / 2 ^ (8 * (n + 1 - 1 - (i + 1))) % 256 = x / 2 ^ (8 * (n - 1 - i)) % 256
  have h : n + 1 - 1 - (i + 1) = n - 1 - i := by omega
  rw [h]

theorem natToBytesBE_mem_lt {n x b : Nat} (h : b ∈ natToBytesBE n x) : b < 256 := by
  simp only [natToBytesBE, List.mem_map] at h
  obtain ⟨i, _, rfl⟩ := h
  exact Nat.mod_lt _ (by omega)

theorem bytesToNatBE_natToBytesBE_aux (n x a : Nat) :
    (natToBytesBE n x).foldl (fun acc b => acc * 256 + b) a
      = a * 2 ^ (8 * n) + x % 2 ^ (8 * n) := by
  induction n generalizing a with
  | zero => simp [natToBytesBE, Nat.mod_one]
  | succ n ih =>
    rw [natToBytesBE_succ, List.foldl_cons, ih]
    have h1 : x % 2 ^ (8 * (n + 1)) = x % 2 ^ (8 * n) + 2 ^ (8 * n) * (x / 2 ^ (8 * n) % 2 ^ 8) := by
      rw [show 8 * (n + 1) = 8 * n + 8 by ring, Nat.pow_add, Nat.mod_mul]
    rw [h1, show (256 : Nat) = 2 ^ 8 by norm_num, show 8 * (n + 1) = 8 * n + 8 by ring,
      Nat.pow_add]
    ring

theorem bytesToNatBE_natToBytesBE (n x : Nat) :
    bytesToNatBE (natToBytesBE n x) = x % 2 ^ (8 * n) := by
  have := bytesToNatBE_natToBytesBE_aux n x 0
  simpa [bytesToNatBE] using this

theorem natToBytesBE_mod (n x : Nat) : natToBytesBE n (x % 2 ^ (8 * n)) = natToBytesBE n x := by
  unfold natToBytesBE
  apply List.map_congr_left
  intro i hi
  rw [List.mem_range] at hi
  rw [show 8 * n = 8 * (n - 1 - i) + 8 * (i + 1) by omega, mod_pow_div,
    show (256 : Nat) = 2 ^ 8 by norm_num,
    Nat.mod_mod_of_dvd _ (pow_dvd_pow 2 (by omega))]

/-! ### Lexicographic order on byte lists -/

theorem lexLtb_cons_lt {a b : Nat} {as bs : List Nat} (h : a < b) :
    lexLtb (a :: as) (b :: bs) = true := by
  simp [lexLtb, h]

theorem lexLtb_cons_self {a : Nat} {as bs : List Nat} :
    lexLtb (a :: as) (a :: bs) = lexLtb as bs := by
  simp [lexLtb]

theorem natToBytesBE_lex {n a b : Nat} (ha : a < 2 ^ (8 * n)) (hb : b < 2 ^ (8 * n))
    (hab : a < b) : lexLtb (natToBytesBE n a) (natToBytesBE n b) = true := by
  induction n generalizing a b with
  | zero =>
    simp only [Nat.mul_zero, Nat.pow_zero] at ha hb
    omega
  | succ n ih =>
    rw [natToBytesBE_succ, natToBytesBE_succ]
    have hda : a / 2 ^ (8 * n) < 256 := by
      rw [show (256 : Nat) = 2 ^ 8 by norm_num]
      rw [Nat.div_lt_iff_lt_mul (Nat.two_pow_pos _), ← Nat.pow_add]
      exact Nat.lt_of_lt_of_le ha (Nat.pow_le_pow_right (by omega) (by omega))
    have hdb : b / 2 ^ (8 * n) < 256 := by
      rw [show (256 : Nat) = 2 ^ 8 by norm_num]
      rw [Nat.div_lt_iff_lt_mul (Nat.two_pow_pos _), ← Nat.pow_add]
      exact Nat.lt_of_lt_of_le hb (Nat.pow_le_pow_right (by omega) (by omega))
    rw [Nat.mod_eq_of_lt hda, Nat.mod_eq_of_lt hdb]
    rcases Nat.lt_trichotomy (a / 2 ^ (8 * n)) (b / 2 ^ (8 * n)) with h | h | h
    · exact lexLtb_cons_lt h
    · rw [h, lexLtb_cons_self, ← natToBytesBE_mod n a, ← natToBytesBE_mod n b]
      have h1 : 2 ^ (8 * n) * (b / 2 ^ (8 * n)) + a % 2 ^ (8 * n) = a := by
        rw [← h]
        exact Nat.div_add_mod a _
      have h2 : 2 ^ (8 * n) * (b / 2 ^ (8 * n)) + b % 2 ^ (8 * n) = b := Nat.div_add_mod b _
      exact ih (Nat.mod_lt _ (Nat.two_pow_pos _)) (Nat.mod_lt _ (Nat.two_pow_pos _)) (by omega)
    · have hle : a / 2 ^ (8 * n) ≤ b / 2 ^ (8 * n) := Nat.div_le_div_right (Nat.le_of_lt hab)
      omega

/-! ### The big-endian accumulation loop of `ordUvarint64.Decode` -/

/-- Structural form of the decode loop `result |= uint64(buf[i]) << shift`. -/
def beAcc : List Nat → Nat → Nat
  | [], r => r
  | b :: rest, r => beAcc rest (r ||| b <<< (rest.length * 8))

theorem foldl_range_eq_beAcc (bs : List Nat) (r : Nat) :
    (List.range bs.length).foldl
      (fun acc i => acc ||| bs.getD i 0 <<< (bs.length * 8 - i * 8 - 8)) r
      = beAcc bs r := by
  induction bs generalizing r with
  | nil => simp [beAcc]
  | cons b bs ih =>
    rw [List.length_cons, List.range_succ_eq_map, List.foldl_cons, List.foldl_map]
    have hf : (fun (acc : Nat) (i : Nat) =>
          acc ||| (b :: bs).getD (Nat.succ i) 0 <<< ((bs.length + 1) * 8 - Nat.succ i * 8 - 8))
        = fun acc i => acc ||| bs.getD i 0 <<< (bs.length * 8 - i * 8 - 8) := by
      funext acc i
      have h1 : (b :: bs).getD (Nat.succ i) 0 = bs.getD i 0 := rfl
      have h2 : (bs.length + 1) * 8 - Nat.succ i * 8 - 8 = bs.length * 8 - i * 8 - 8 := by omega
      rw [h1, h2]
    rw [hf]
    rw [show (bs.length + 1) * 8 - 0 * 8 - 8 = bs.length * 8 by omega]
    exact ih (r ||| b <<< (bs.length * 8))

theorem beAcc_eq_foldl (bs : List Nat) (hb : ∀ b ∈ bs, b < 256) (a : Nat) :
    beAcc bs (a * 2 ^ (8 * bs.length)) = bs.foldl (fun acc b => acc * 256 + b) a := by
  induction bs generalizing a with
  | nil => simp [beAcc]
  | cons b bs ih =>
    simp only [beAcc, List.length_cons, List.foldl_cons]
    have hb0 : b < 256 := hb b (by simp)
    have key : a * 2 ^ (8 * (bs.length + 1)) ||| b <<< (bs.length * 8)
        = (a * 256 + b) * 2 ^ (8 * bs.length) := by
      rw [Nat.shiftLeft_eq]
      have hlt : b * 2 ^ (bs.length * 8) < 2 ^ (8 * (bs.length + 1)) := by
        calc b * 2 ^ (bs.length * 8) < 256 * 2 ^ (bs.length * 8) :=
              (Nat.mul_lt_mul_right (Nat.two_pow_pos _)).mpr hb0
          _ = 2 ^ (8 * (bs.length + 1)) := by
              rw [show (256 : Nat) = 2 ^ 8 by norm_num, ← Nat.pow_add]
              congr 1
              omega
      rw [lor_mul_pow_add hlt, show 8 * (bs.length + 1) = 8 * bs.length + 8 by ring,
        Nat.pow_add, show bs.length * 8 = 8 * bs.length by ring]
      ring
    rw [key, ih (fun x hx => hb x (by simp [hx]))]

theorem beAcc_eq_bytesToNatBE (bs : List Nat) (hb : ∀ b ∈ bs, b < 256) :
    beAcc bs 0 = bytesToNatBE bs := by
  have := beAcc_eq_foldl bs hb 0
  simpa [bytesToNatBE] using this

/-! ### Characterisation of the non-escape form of `ordUvarint64` -/

/-- The numeric value, as an `8n`-bit big-endian integer, of the unary-length
header of an `n`-byte non-escape encoding: `n-1` one bits then a zero bit at
the very top, zeros elsewhere. -/
def ordHeader (n : Nat) : Nat := (2 ^ (n - 1) - 1) * 2 ^ (7 * n + 1)

theorem escape_iff (v : Nat) : 56 < len64 v ↔ 2 ^ 56 ≤ v := by
  have h := len64_le_iff v (k := 56) (by omega)
  omega

theorem ordUvarint64Size_nonescape {v : Nat} (hv : v < 2 ^ 56) :
    ordUvarint64Size v = 1 + (len64 v - 1) / 7 := by
  unfold ordUvarint64Size
  rw [if_neg]
  rw [escape_iff]
  omega

theorem size_facts {v : Nat} (hv : v < 2 ^ 56) :
    1 ≤ ordUvarint64Size v ∧ ordUvarint64Size v ≤ 8 ∧ v < 2 ^ (7 * ordUvarint64Size v) ∧
      (2 ≤ ordUvarint64Size v → 2 ^ (7 * (ordUvarint64Size v - 1)) ≤ v) := by
  have hle : len64 v ≤ 56 := (len64_le_iff v (by omega)).mpr hv
  have hvl : v < 2 ^ len64 v := lt_two_pow_len64 (by
    exact Nat.lt_of_lt_of_le hv (Nat.pow_le_pow_right (by omega) (by omega)))
  rw [ordUvarint64Size_nonescape hv]
  refine ⟨by omega, by omega, ?_, ?_⟩
  · exact Nat.lt_of_lt_of_le hvl (Nat.pow_le_pow_right (by omega) (by omega))
  · intro h2
    have hl8 : 8 ≤ len64 v := by omega
    have hv0 : v ≠ 0 := by
      intro h
      rw [h] at hl8
      have : len64 0 = 0 := (len64_eq_zero_iff 0).mpr rfl
      omega
    refine Nat.le_trans (Nat.pow_le_pow_right (by omega) ?_) (two_pow_len64_pred_le hv0)
    omega

theorem headerByte_eq {n : Nat} (h1 : 1 ≤ n) (h8 : n ≤ 8) :
    byteShl (byteSub (byteShl 1 (toUint64 ((n : Int) - 1))) 1)
      (toUint64 (8 - ((n : Int) - 1))) = (2 ^ (n - 1) - 1) * 2 ^ (9 - n) := by
  have hbig : ((2 ^ 64 : Nat) : Int) = 18446744073709551616 := by norm_num
  have hc1 : toUint64 ((n : Int) - 1) = n - 1 := by
    unfold toUint64
    rw [Int.emod_eq_of_lt (by omega) (by omega)]
    omega
  have hc2 : toUint64 (8 - ((n : Int) - 1)) = 9 - n := by
    unfold toUint64
    rw [Int.emod_eq_of_lt (by omega) (by omega)]
    omega
  rw [hc1, hc2]
  have hstep1 : byteShl 1 (n - 1) = 2 ^ (n - 1) := by
    unfold byteShl
    rw [if_neg (by omega), Nat.one_mul, Nat.mod_eq_of_lt]
    have : (2 : Nat) ^ (n - 1) ≤ 2 ^ 7 := Nat.pow_le_pow_right (by omega) (by omega)
    omega
  have hp1 : 1 ≤ 2 ^ (n - 1) := Nat.one_le_two_pow
  have hp128 : 2 ^ (n - 1) ≤ 128 := by
    have : (2 : Nat) ^ (n - 1) ≤ 2 ^ 7 := Nat.pow_le_pow_right (by omega) (by omega)
    omega
  have hstep2 : byteSub (2 ^ (n - 1)) 1 = 2 ^ (n - 1) - 1 := by
    unfold byteSub
    omega
  rw [hstep1, hstep2]
  unfold byteShl
  rcases Nat.eq_or_lt_of_le h1 with h | h
  · rw [if_pos (by omega), ← h]
    norm_num
  · rw [if_neg (by omega), Nat.mod_eq_of_lt]
    have hsum : (2 ^ (n - 1) - 1) * 2 ^ (9 - n) + 2 ^ (9 - n) = 256 := by
      rw [Nat.sub_one_mul, Nat.sub_add_cancel (Nat.le_mul_of_pos_left _ Nat.one_le_two_pow),
        ← Nat.pow_add, show (256 : Nat) = 2 ^ 8 from by norm_num]
      congr 1
      omega
    have hpge : 2 ≤ 2 ^ (9 - n) := by
      have : (2 : Nat) ^ 1 ≤ 2 ^ (9 - n) := Nat.pow_le_pow_right (by omega) (by omega)
      omega
    omega

theorem ordUvarint64Encode_nonescape {v : Nat} (hv : v < 2 ^ 56) :
    ordUvarint64Encode v
      = natToBytesBE (ordUvarint64Size v) (ordHeader (ordUvarint64Size v) + v) := by
  by_cases h0 : v = 0
  · subst h0
    decide
  obtain ⟨hn1, hn8, hvn, -⟩ := size_facts hv
  have hle : len64 v ≤ 56 := (len64_le_iff v (by omega)).mpr hv
  have hl1 : 1 ≤ len64 v := by
    have := (len64_eq_zero_iff v).mp
    omega
  have hsz : ordUvarint64Size v = 1 + (len64 v - 1) / 7 := ordUvarint64Size_nonescape hv
  have hnB : (len64 v + 6) / 7 = ordUvarint64Size v := by omega
  set n := ordUvarint64Size v with hndef
  unfold ordUvarint64Encode
  rw [if_neg (by omega)]
  unfold natToBytesBE
  apply List.map_congr_left
  intro i hi
  rw [List.mem_range] at hi
  rw [hnB]
  have hA : ordHeader n + v = ordHeader n + v := rfl
  rcases Nat.eq_zero_or_pos i with hi0 | hipos
  · subst hi0
    rw [if_pos rfl, if_pos (by omega), headerByte_eq hn1 hn8,
      show n - 0 - 1 = n - 1 from by omega, show n - 1 - 0 = n - 1 from by omega]
    have hc0 : v / 2 ^ (8 * (n - 1)) < 2 ^ (8 - n) := by
      rw [Nat.div_lt_iff_lt_mul (Nat.two_pow_pos _), ← Nat.pow_add]
      exact Nat.lt_of_lt_of_le hvn (Nat.pow_le_pow_right (by omega) (by omega))
    have hc0' : v / 2 ^ (8 * (n - 1)) % 256 = v / 2 ^ (8 * (n - 1)) := by
      apply Nat.mod_eq_of_lt
      have : (2 : Nat) ^ (8 - n) ≤ 2 ^ 7 := Nat.pow_le_pow_right (by omega) (by omega)
      omega
    rw [hc0']
    have hlt9 : v / 2 ^ (8 * (n - 1)) < 2 ^ (9 - n) := by
      have : (2 : Nat) ^ (8 - n) ≤ 2 ^ (9 - n) := Nat.pow_le_pow_right (by omega) (by omega)
      omega
    rw [lor_mul_pow_add hlt9]
    have hhd : ordHeader n = 2 ^ (8 * (n - 1)) * ((2 ^ (n - 1) - 1) * 2 ^ (9 - n)) := by
      unfold ordHeader
      rw [Nat.mul_comm (2 ^ (8 * (n - 1))), Nat.mul_assoc, ← Nat.pow_add]
      congr 2
      omega
    rw [hhd, Nat.mul_add_div (Nat.two_pow_pos _)]
    rw [Nat.mod_eq_of_lt]
    have hq : (2 ^ (n - 1) - 1) * 2 ^ (9 - n) + 2 ^ (9 - n) = 256 := by
      rw [Nat.sub_one_mul, Nat.sub_add_cancel (Nat.le_mul_of_pos_left _ Nat.one_le_two_pow),
        ← Nat.pow_add, show (256 : Nat) = 2 ^ 8 from by norm_num]
      congr 1
      omega
    have hp8 : 2 * 2 ^ (8 - n) = 2 ^ (9 - n) := by
      rw [Nat.mul_comm, ← Nat.pow_succ]
      congr 1
      omega
    omega
  · rw [if_neg (by omega), if_pos hi, Nat.zero_or]
    have hnm : n - 1 - i = n - i - 1 := by omega
    rw [hnm]
    have hhd : ordHeader n
        = 2 ^ (8 * (n - i - 1)) * ((2 ^ (n - 1) - 1) * 2 ^ (9 - n + 8 * i)) := by
      unfold ordHeader
      rw [Nat.mul_comm (2 ^ (8 * (n - i - 1))), Nat.mul_assoc, ← Nat.pow_add]
      congr 2
      omega
    rw [hhd, Nat.mul_add_div (Nat.two_pow_pos _)]
    have hsplit : (2 ^ (n - 1) - 1) * 2 ^ (9 - n + 8 * i)
        = (2 ^ (n - 1) - 1) * 2 ^ (9 - n + 8 * i - 8) * 256 := by
      rw [Nat.mul_assoc, show (256 : Nat) = 2 ^ 8 by norm_num, ← Nat.pow_add]
      congr 2
      omega
    rw [hsplit]
    omega

theorem pow_header_sum (m : Nat) (h8 : m ≤ 7) :
    (2 ^ m - 1) * 2 ^ (8 - m) + 2 ^ (8 - m) = 256 := by
  rw [Nat.sub_one_mul, Nat.sub_add_cancel (Nat.le_mul_of_pos_left _ Nat.one_le_two_pow),
    ← Nat.pow_add, show (256 : Nat) = 2 ^ 8 from by norm_num]
  congr 1
  omega

theorem head_formula {n v : Nat} (h1 : 1 ≤ n) (h8 : n ≤ 8) (hvn : v < 2 ^ (7 * n)) :
    (natToBytesBE n (ordHeader n + v)).getD 0 0
        = (256 - 2 ^ (9 - n)) + v / 2 ^ (8 * (n - 1)) ∧
      v / 2 ^ (8 * (n - 1)) < 2 ^ (8 - n) := by
  obtain ⟨m, hm⟩ : ∃ m, n = m + 1 := ⟨n - 1, by omega⟩
  subst hm
  simp only [Nat.add_sub_cancel] at *
  have hc : v / 2 ^ (8 * m) < 2 ^ (8 - (m + 1)) := by
    rw [Nat.div_lt_iff_lt_mul (Nat.two_pow_pos _), ← Nat.pow_add]
    exact Nat.lt_of_lt_of_le hvn (Nat.pow_le_pow_right (by omega) (by omega))
  refine ⟨?_, hc⟩
  rw [natToBytesBE_succ, List.getD_cons_zero]
  have hhd : ordHeader (m + 1) = 2 ^ (8 * m) * ((2 ^ m - 1) * 2 ^ (8 - m)) := by
    unfold ordHeader
    simp only [Nat.add_sub_cancel]
    rw [Nat.mul_comm (2 ^ (8 * m)), Nat.mul_assoc, ← Nat.pow_add]
    congr 2
    omega
  rw [hhd, Nat.mul_add_div (Nat.two_pow_pos _)]
  have hq := pow_header_sum m (by omega)
  have h9 : 9 - (m + 1) = 8 - m := by omega
  rw [h9]
  have hc' : v / 2 ^ (8 * m) < 2 ^ (8 - m) := by
    have : (2 : Nat) ^ (8 - (m + 1)) ≤ 2 ^ (8 - m) := Nat.pow_le_pow_right (by omega) (by omega)
    omega
  rw [Nat.mod_eq_of_lt (by omega)]
  omega

theorem ordUvarint64Encode_head {v : Nat} (hv : v < 2 ^ 56) :
    (ordUvarint64Encode v).getD 0 0
        = (256 - 2 ^ (9 - ordUvarint64Size v)) + v / 2 ^ (8 * (ordUvarint64Size v - 1)) ∧
      v / 2 ^ (8 * (ordUvarint64Size v - 1)) < 2 ^ (8 - ordUvarint64Size v) := by
  obtain ⟨hn1, hn8, hvn, -⟩ := size_facts hv
  rw [ordUvarint64Encode_nonescape hv]
  exact head_formula hn1 hn8 hvn

theorem ordUvarint64Encode_head_le {v : Nat} (hv : v < 2 ^ 56) :
    (ordUvarint64Encode v).getD 0 0 ≤ 255 - 2 ^ (8 - ordUvarint64Size v) := by
  obtain ⟨hn1, hn8, -, -⟩ := size_facts hv
  obtain ⟨he, hc⟩ := ordUvarint64Encode_head hv
  have hp8 : 2 * 2 ^ (8 - ordUvarint64Size v) = 2 ^ (9 - ordUvarint64Size v) := by
    rw [Nat.mul_comm, ← Nat.pow_succ]
    congr 1
    omega
  have : (2 : Nat) ^ (9 - ordUvarint64Size v) ≤ 2 ^ 8 := Nat.pow_le_pow_right (by omega) (by omega)
  omega

theorem len8_of_bounds {w k : Nat} (hk : k < 8) (hlo : 2 ^ k ≤ w) (hhi : w < 2 ^ (k + 1)) :
    len8 w = k + 1 := by
  have h1 : ¬ len8 w ≤ k := by
    rw [len8, len64Aux_le_iff w (by omega)]
    omega
  have h2 : len8 w ≤ k + 1 := by
    rcases Nat.lt_or_ge (k + 1) 8 with h | h
    · rw [len8, len64Aux_le_iff w (by omega)]
      exact hhi
    · have hle8 : len8 w ≤ 8 := len64Aux_le 8 w
      omega
  omega

/-- On a first byte of the non-escape shape (`n-1` leading ones, a zero, then
`c`), the decoder recovers `nBytes = n`. -/
theorem decode_leading {n c : Nat} (h1 : 1 ≤ n) (h8 : n ≤ 8) (hc : c < 2 ^ (8 - n)) :
    leadingZeros8 (byteNot ((256 - 2 ^ (9 - n)) + c)) + 1 = n := by
  have hp8 : 2 * 2 ^ (8 - n) = 2 ^ (9 - n) := by
    rw [Nat.mul_comm, ← Nat.pow_succ]
    congr 1
    omega
  have hple : (2 : Nat) ^ (9 - n) ≤ 2 ^ 8 := Nat.pow_le_pow_right (by omega) (by omega)
  have hfb : (256 - 2 ^ (9 - n)) + c < 256 := by omega
  have hnot : byteNot ((256 - 2 ^ (9 - n)) + c) = 2 ^ (9 - n) - 1 - c := by
    unfold byteNot
    rw [Nat.mod_eq_of_lt hfb]
    omega
  rw [hnot]
  unfold leadingZeros8
  have hlen : len8 (2 ^ (9 - n) - 1 - c) = 8 - n + 1 := by
    apply len8_of_bounds (by omega)
    · omega
    · have : 8 - n + 1 = 9 - n := by omega
      rw [this]
      omega
  rw [hlen]
  omega

theorem foldl_range_eq_beAcc' (bs : List Nat) (n : Nat) (hn : bs.length = n) (r : Nat) :
    (List.range n).foldl (fun acc i => acc ||| bs.getD i 0 <<< (n * 8 - i * 8 - 8)) r
      = beAcc bs r := by
  subst hn
  exact foldl_range_eq_beAcc bs r

/-- Zeta-reduced form of `ordUvarint64Decode`, for rewriting. -/
theorem ordUvarint64Decode_eq (buf : List Nat) :
    ordUvarint64Decode buf =
      if buf.length < 1 then .error .unexpectedEOF
      else if (leadingZeros8 (byteNot (buf.getD 0 0)) + 1) * 7 = 63 then
        if buf.length < 9 then .error .unexpectedEOF
        else .ok (bytesToNatBE ((buf.drop 1).take 8))
      else
        if buf.length < leadingZeros8 (byteNot (buf.getD 0 0)) + 1 then .error .unexpectedEOF
        else
          .ok
            (((List.range (leadingZeros8 (byteNot (buf.getD 0 0)) + 1)).foldl
              (fun r i => r ||| buf.getD i 0 <<<
                (((leadingZeros8 (byteNot (buf.getD 0 0)) + 1) * 7 + 8) / 8 * 8 - i * 8 - 8))
              0) &&&
            (1 <<< ((leadingZeros8 (byteNot (buf.getD 0 0)) + 1) * 7) - 1)) := rfl

theorem ordUvarint64Encode_escape {v : Nat} (hv : 2 ^ 56 ≤ v) :
    ordUvarint64Encode v = 255 :: natToBytesBE 8 v := by
  unfold ordUvarint64Encode
  rw [if_pos ((escape_iff v).mpr hv)]

theorem ordHeader_mul (n : Nat) (_h1 : 1 ≤ n) :
    ordHeader n = 2 ^ (n * 7) * ((2 ^ (n - 1) - 1) * 2) := by
  unfold ordHeader
  rw [Nat.mul_comm (2 ^ (n * 7)), Nat.mul_assoc, ← Nat.pow_succ']
  congr 2
  omega

/-- C1: for every `uint64` value `x`, decoding the `ordUvarint64` encoding of
`x` succeeds and yields exactly `x` back. -/
theorem C1_ordUvarint64_roundtrip (v : Nat) (hv : v < 2 ^ 64) :
    ordUvarint64Decode (ordUvarint64Encode v) = .ok v := by
  rcases Nat.lt_or_ge v (2 ^ 56) with hlt | hge
  · obtain ⟨hn1, hn8, hvn, -⟩ := size_facts hlt
    obtain ⟨hhead, hc⟩ := ordUvarint64Encode_head hlt
    set n := ordUvarint64Size v with hndef
    have hchar := ordUvarint64Encode_nonescape hlt
    have hlen : (ordUvarint64Encode v).length = n := by
      rw [hchar, natToBytesBE_length]
    rw [ordUvarint64Decode_eq, if_neg (by omega), hhead, decode_leading hn1 hn8 hc,
      if_neg (by omega), if_neg (by omega)]
    rw [show (n * 7 + 8) / 8 = n from by omega]
    rw [foldl_range_eq_beAcc' _ n hlen,
      beAcc_eq_bytesToNatBE _ (fun b hb => by
        rw [hchar] at hb
        exact natToBytesBE_mem_lt hb),
      hchar, bytesToNatBE_natToBytesBE]
    have hKlt : ordHeader n + v < 2 ^ (8 * n) := by
      have h78 : (2 : Nat) ^ (7 * n + 1) ≤ 2 ^ (8 * n) := Nat.pow_le_pow_right (by omega) (by omega)
      have hv7 : (2 : Nat) ^ (7 * n) * 2 = 2 ^ (7 * n + 1) := by rw [Nat.pow_succ]
      have hhdv : ordHeader n + 2 ^ (7 * n + 1) ≤ 2 ^ (8 * n) := by
        unfold ordHeader
        rw [Nat.sub_one_mul, Nat.sub_add_cancel (Nat.le_mul_of_pos_left _ Nat.one_le_two_pow),
          ← Nat.pow_add]
        exact Nat.pow_le_pow_right (by omega) (by omega)
      omega
    rw [Nat.mod_eq_of_lt hKlt, Nat.shiftLeft_eq, Nat.one_mul,
      Nat.and_pow_two_sub_one_eq_mod, ordHeader_mul n hn1, Nat.mul_add_mod]
    rw [Nat.mod_eq_of_lt (by rw [show n * 7 = 7 * n from by omega]; exact hvn)]
  · rw [ordUvarint64Encode_escape hge, ordUvarint64Decode_eq]
    have hlen : (255 :: natToBytesBE 8 v).length = 9 := by
      simp [natToBytesBE_length]
    have hgd : (255 :: natToBytesBE 8 v).getD 0 0 = 255 := rfl
    rw [if_neg (by omega), hgd, show leadingZeros8 (byteNot 255) + 1 = 9 from by decide,
      if_pos (by norm_num), if_neg (by omega), List.drop_succ_cons, List.drop_zero,
      List.take_of_length_le (by rw [natToBytesBE_length]), bytesToNatBE_natToBytesBE,
      show (8 * 8 : Nat) = 64 from by norm_num, Nat.mod_eq_of_lt hv]

/-- C1 witness: the round trip at the concrete input 300. -/
theorem C1_ordUvarint64_roundtrip_witness :
    ordUvarint64Decode (ordUvarint64Encode 300) = .ok 300 :=
  C1_ordUvarint64_roundtrip 300 (by norm_num)

theorem ordUvarint64Encode_length (v : Nat) :
    (ordUvarint64Encode v).length = ordUvarint64Size v := by
  rcases Nat.lt_or_ge v (2 ^ 56) with h | h
  · rw [ordUvarint64Encode_nonescape h, natToBytesBE_length]
  · rw [ordUvarint64Encode_escape h]
    have h9 : ordUvarint64Size v = 9 := by
      unfold ordUvarint64Size
      rw [if_pos ((escape_iff v).mpr h)]
    rw [h9]
    simp [natToBytesBE_length]

theorem lexLtb_head_lt {xs ys : List Nat} (hx : xs ≠ []) (hy : ys ≠ [])
    (h : xs.getD 0 0 < ys.getD 0 0) : lexLtb xs ys = true := by
  cases xs with
  | nil => exact absurd rfl hx
  | cons x xs =>
    cases ys with
    | nil => exact absurd rfl hy
    | cons y ys => exact lexLtb_cons_lt h

theorem ordHeader_add_lt {n v : Nat} (h1 : 1 ≤ n) (hvn : v < 2 ^ (7 * n)) :
    ordHeader n + v < 2 ^ (8 * n) := by
  have hhdv : ordHeader n + 2 ^ (7 * n + 1) ≤ 2 ^ (8 * n) := by
    unfold ordHeader
    rw [Nat.sub_one_mul, Nat.sub_add_cancel (Nat.le_mul_of_pos_left _ Nat.one_le_two_pow),
      ← Nat.pow_add]
    exact Nat.pow_le_pow_right (by omega) (by omega)
  have hv7 : (2 : Nat) ^ (7 * n) * 2 = 2 ^ (7 * n + 1) := by rw [Nat.pow_succ]
  omega

theorem ordUvarint64Encode_ne_nil (v : Nat) : ordUvarint64Encode v ≠ [] := by
  intro h
  have h1 := ordUvarint64Encode_length v
  rw [h] at h1
  simp only [List.length_nil] at h1
  unfold ordUvarint64Size at h1
  split at h1 <;> omega

/-- C3: exact size boundaries of `ordUvarint64`: 1 byte at 127, 2 bytes at 128,
8 bytes at `2^56 - 1`, 9 bytes at `2^56` with escape first byte `0xFF`; the
escape branch (`bit length > 56`, equivalently a leading `0xFF` byte) is taken
exactly for `x ≥ 2^56` and never below. -/
theorem C3_ordUvarint64_size_boundaries :
    ordUvarint64Size 127 = 1 ∧ ordUvarint64Size 128 = 2 ∧
      ordUvarint64Size (2 ^ 56 - 1) = 8 ∧ ordUvarint64Size (2 ^ 56) = 9 ∧
      (ordUvarint64Encode (2 ^ 56)).getD 0 0 = 255 ∧
      (∀ x : Nat, 56 < len64 x ↔ 2 ^ 56 ≤ x) ∧
      (∀ x : Nat, (ordUvarint64Encode x).getD 0 0 = 255 ↔ 2 ^ 56 ≤ x) := by
  refine ⟨by decide, by decide, by decide, by decide, ?_, escape_iff, ?_⟩
  · rw [ordUvarint64Encode_escape (Nat.le_refl _)]
    rfl
  · intro x
    constructor
    · intro hx
      by_contra hlt
      rw [Nat.not_le] at hlt
      have hle := ordUvarint64Encode_head_le hlt
      have h1 : (1 : Nat) ≤ 2 ^ (8 - ordUvarint64Size x) := Nat.one_le_two_pow
      omega
    · intro hx
      rw [ordUvarint64Encode_escape hx]
      rfl

/-- C2: order preservation: for `a < b` (both `uint64`), the `ordUvarint64`
encoding of `a` is strictly lexicographically below that of `b`. -/
theorem C2_ordUvarint64_order (a b : Nat) (hab : a < b) (hb : b < 2 ^ 64) :
    lexLtb (ordUvarint64Encode a) (ordUvarint64Encode b) = true := by
  rcases Nat.lt_or_ge b (2 ^ 56) with hb56 | hb56
  · have ha56 : a < 2 ^ 56 := by omega
    obtain ⟨han1, han8, havn, halow⟩ := size_facts ha56
    obtain ⟨hbn1, hbn8, hbvn, hblow⟩ := size_facts hb56
    rcases Nat.lt_trichotomy (ordUvarint64Size a) (ordUvarint64Size b) with hn | hn | hn
    · obtain ⟨hhb, hcb⟩ := ordUvarint64Encode_head hb56
      have hhbge : 256 - 2 ^ (9 - ordUvarint64Size b) ≤ (ordUvarint64Encode b).getD 0 0 := by
        rw [hhb]
        exact Nat.le_add_right _ _
      have hlea := ordUvarint64Encode_head_le ha56
      have hmono : (2 : Nat) ^ (9 - ordUvarint64Size b) ≤ 2 ^ (8 - ordUvarint64Size a) :=
        Nat.pow_le_pow_right (by omega) (by omega)
      apply lexLtb_head_lt (ordUvarint64Encode_ne_nil a) (ordUvarint64Encode_ne_nil b)
      have hm1 : (1 : Nat) ≤ 2 ^ (9 - ordUvarint64Size b) := Nat.one_le_two_pow
      have hple : (2 : Nat) ^ (9 - ordUvarint64Size b) ≤ 2 ^ 7 :=
        Nat.pow_le_pow_right (by omega) (by omega)
      clear hhb hcb
      omega
    · rw [ordUvarint64Encode_nonescape ha56, ordUvarint64Encode_nonescape hb56, hn]
      apply natToBytesBE_lex
      · exact ordHeader_add_lt hbn1 (by rw [← hn]; exact havn)
      · exact ordHeader_add_lt hbn1 hbvn
      · omega
    · exfalso
      have h2 : 2 ≤ ordUvarint64Size a := by omega
      have hla := halow h2
      have hmono : (2 : Nat) ^ (7 * ordUvarint64Size b) ≤ 2 ^ (7 * (ordUvarint64Size a - 1)) :=
        Nat.pow_le_pow_right (by omega) (by omega)
      omega
  · rcases Nat.lt_or_ge a (2 ^ 56) with ha56 | ha56
    · apply lexLtb_head_lt (ordUvarint64Encode_ne_nil a) (ordUvarint64Encode_ne_nil b)
      have hlea := ordUvarint64Encode_head_le ha56
      have hdb : (ordUvarint64Encode b).getD 0 0 = 255 := by
        rw [ordUvarint64Encode_escape hb56]
        rfl
      have h1 : (1 : Nat) ≤ 2 ^ (8 - ordUvarint64Size a) := Nat.one_le_two_pow
      omega
    · rw [ordUvarint64Encode_escape ha56, ordUvarint64Encode_escape hb56, lexLtb_cons_self]
      apply natToBytesBE_lex _ _ hab
      · rw [show (8 * 8 : Nat) = 64 from by norm_num]
        omega
      · rw [show (8 * 8 : Nat) = 64 from by norm_num]
        exact hb

/-- C2 witness at the concrete pair 3 < 5000. -/
theorem C2_ordUvarint64_order_witness :
    lexLtb (ordUvarint64Encode 3) (ordUvarint64Encode 5000) = true :=
  C2_ordUvarint64_order 3 5000 (by norm_num) (by norm_num)

/-! ### Length-delimited bytes and strings

The Go source of `lengthDelimBytes.Encode` is
`n := binary.PutUvarint(buf, uint64(len(*e.v))); copy(buf, (*e.v)[n:])`:
the copy overwrites the buffer from position 0 (not from position `n`).
`lengthDelimString.Encode` has the identical body. (For an empty slice the Go
slice expression `(*e.v)[n:]` with `n = 1` panics; `List.drop` models the
copy source for every other input.) -/

/-- Shared `Encode` body of `lengthDelimBytes` and `lengthDelimString`:
the final contents of the zero-initialised `Size()`-byte buffer after
`PutUvarint` and the (front-anchored) `copy`. -/
def lengthDelimBytesEncode (v : List Nat) : List Nat :=
  goCopy (putUvarint v.length ++ List.replicate v.length 0)
    (v.drop (putUvarint v.length).length)

/-- `lengthDelimBytes.Decode`, returning the value stored into the bound cell.
The source runs `*e.v = make([]byte, l); copy(buf[n:], *e.v)` — the copy's
arguments are reversed, so the fresh all-zero slice is copied into the buffer
and the cell keeps the `l` zero bytes. -/
def lengthDelimBytesDecode (buf : List Nat) : Except Err (List Nat) :=
  let p := uvarint buf
  if p.2 = 0 then .error .unexpectedEOF
  else if p.2 < 0 then .error .overflowVarint
  else if (buf.drop p.2.toNat).length < p.1 then .error .unexpectedEOF
  else .ok (List.replicate p.1 0)

/-- `lengthDelimString.Decode`, returning the value stored into the bound
cell: the source runs `*e.v = string(buf[n:])`, taking every remaining byte
of the buffer rather than `l` of them. -/
def lengthDelimStringDecode (buf : List Nat) : Except Err (List Nat) :=
  let p := uvarint buf
  if p.2 = 0 then .error .unexpectedEOF
  else if p.2 < 0 then .error .overflowVarint
  else if (buf.drop p.2.toNat).length < p.1 then .error .unexpectedEOF
  else .ok (buf.drop p.2.toNat)

/-! ### The codec-item layer and the sequence composer

Each Go item binds a mutable cell (`*uint16`, `*string`, ...) by pointer.
The embedding gives every cell an index into a `Store`; `Value` is the closed
sum of cell types occurring in the package. Decoding threads both the store
(Go mutates the bound cells) and the buffer (the reversed copy in
`lengthDelimBytes.Decode` writes into the caller's buffer). -/

inductive Value where
  | vByte (x : Nat)
  | vBool (b : Bool)
  | vU16 (x : Nat)
  | vU32 (x : Nat)
  | vU64 (x : Nat)
  | vBytes (bs : List Nat)
  | vStr (bs : List Nat)
  | vArr16 (bs : List Nat)
  | vArr32 (bs : List Nat)
deriving DecidableEq, Repr

def Store : Type := Nat → Value

def updateStore (st : Store) (r : Nat) (v : Value) : Store :=
  fun r' => if r' = r then v else st r'

def getByte (st : Store) (r : Nat) : Nat := match st r with | .vByte x => x | _ => 0
def getBool (st : Store) (r : Nat) : Bool := match st r with | .vBool b => b | _ => false
def getU16 (st : Store) (r : Nat) : Nat := match st r with | .vU16 x => x | _ => 0
def getU32 (st : Store) (r : Nat) : Nat := match st r with | .vU32 x => x | _ => 0
def getU64 (st : Store) (r : Nat) : Nat := match st r with | .vU64 x => x | _ => 0
def getBytes (st : Store) (r : Nat) : List Nat := match st r with | .vBytes bs => bs | _ => []
def getStr (st : Store) (r : Nat) : List Nat := match st r with | .vStr bs => bs | _ => []
def getArr16 (st : Store) (r : Nat) : List Nat := match st r with | .vArr16 bs => bs | _ => []
def getArr32 (st : Store) (r : Nat) : List Nat := match st r with | .vArr32 bs => bs | _ => []

/-- The closed set of item kinds of the package, each holding the index of its
bound cell (`Padding` holds its byte count). -/
inductive Item where
  | padding (n : Nat)
  | byte (r : Nat)
  | bool (r : Nat)
  | bigEndianUint16 (r : Nat)
  | bigEndianUint32 (r : Nat)
  | bigEndianUint64 (r : Nat)
  | uvarint32 (r : Nat)
  | uvarint64 (r : Nat)
  | ordUvarint64 (r : Nat)
  | lengthDelimBytes (r : Nat)
  | lengthDelimString (r : Nat)
  | bytes16 (r : Nat)
  | bytes32 (r : Nat)
deriving DecidableEq, Repr

/-- `Item.Size()` for each kind, reading the currently bound value. -/
def itemSize : Item → Store → Nat
  | .padding n, _ => n
  | .byte _, _ => 1
  | .bool _, _ => 1
  | .bigEndianUint16 _, _ => 2
  | .bigEndianUint32 _, _ => 4
  | .bigEndianUint64 _, _ => 8
  | .uvarint32 r, st => uvarintSize (getU32 st r)
  | .uvarint64 r, st => uvarintSize (getU64 st r)
  | .ordUvarint64 r, st => ordUvarint64Size (getU64 st r)
  | .lengthDelimBytes r, st => uvarintSize (getBytes st r).length + (getBytes st r).length
  | .lengthDelimString r, st => uvarintSize (getStr st r).length + (getStr st r).length
  | .bytes16 _, _ => 16
  | .bytes32 _, _ => 32

/-- `Item.Encode` for each kind: the final contents of the zero-initialised
`Size()`-byte slice the composer hands the item, paired with the store after
the call. No `Encode` body in the source assigns to its bound cell, so every
branch returns the store unchanged. -/
def itemEncode : Item → Store → List Nat × Store
  | .padding n, st => (List.replicate n 0, st)
  | .byte r, st => ([getByte st r], st)
  | .bool r, st => ([if getBool st r then 1 else 0], st)
  | .bigEndianUint16 r, st => (natToBytesBE 2 (getU16 st r), st)
  | .bigEndianUint32 r, st => (natToBytesBE 4 (getU32 st r), st)
  | .bigEndianUint64 r, st => (natToBytesBE 8 (getU64 st r), st)
  | .uvarint32 r, st => (putUvarint (getU32 st r), st)
  | .uvarint64 r, st => (putUvarint (getU64 st r), st)
  | .ordUvarint64 r, st => (ordUvarint64Encode (getU64 st r), st)
  | .lengthDelimBytes r, st => (lengthDelimBytesEncode (getBytes st r), st)
  | .lengthDelimString r, st => (lengthDelimBytesEncode (getStr st r), st)
  | .bytes16 r, st => (goCopy (List.replicate 16 0) (getArr16 st r), st)
  | .bytes32 r, st => (goCopy (List.replicate 32 0) (getArr32 st r), st)

/-- `Item.Decode` for each kind: takes the buffer suffix handed to the item
and the store, and on success returns the updated store together with the
(possibly rewritten) suffix. Every branch checks before writing, so an error
leaves both untouched. -/
def itemDecode : Item → List Nat → Store → Except Err (Store × List Nat)
  | .padding n, s, st =>
    if s.length < n then .error .unexpectedEOF else .ok (st, s)
  | .byte r, s, st =>
    if s.length < 1 then .error .unexpectedEOF
    else .ok (updateStore st r (.vByte (s.getD 0 0)), s)
  | .bool r, s, st =>
    if s.length < 1 then .error .unexpectedEOF
    else .ok (updateStore st r (.vBool (s.getD 0 0 == 1)), s)
  | .bigEndianUint16 r, s, st =>
    if s.length < 2 then .error .unexpectedEOF
    else .ok (updateStore st r (.vU16 (bytesToNatBE (s.take 2))), s)
  | .bigEndianUint32 r, s, st =>
    if s.length < 4 then .error .unexpectedEOF
    else .ok (updateStore st r (.vU32 (bytesToNatBE (s.take 4))), s)
  | .bigEndianUint64 r, s, st =>
    if s.length < 8 then .error .unexpectedEOF
    else .ok (updateStore st r (.vU64 (bytesToNatBE (s.take 8))), s)
  | .uvarint32 r, s, st =>
    let p := uvarint s
    if p.2 = 0 then .error .unexpectedEOF
    else if p.2 < 0 then .error .overflowVarint
    else if (4294967295 : Int) < p.2 then .error .overflowVarint
    else .ok (updateStore st r (.vU32 (p.1 % 2 ^ 32)), s)
  | .uvarint64 r, s, st =>
    let p := uvarint s
    if p.2 = 0 then .error .unexpectedEOF
    else if p.2 < 0 then .error .overflowVarint
    else .ok (updateStore st r (.vU64 p.1), s)
  | .ordUvarint64 r, s, st =>
    match ordUvarint64Decode s with
    | .error e => .error e
    | .ok x => .ok (updateStore st r (.vU64 x), s)
  | .lengthDelimBytes r, s, st =>
    let p := uvarint s
    if p.2 = 0 then .error .unexpectedEOF
    else if p.2 < 0 then .error .overflowVarint
    else if (s.drop p.2.toNat).length < p.1 then .error .unexpectedEOF
    else
      .ok (updateStore st r (.vBytes (List.replicate p.1 0)),
        s.take p.2.toNat ++ goCopy (s.drop p.2.toNat) (List.replicate p.1 0))
  | .lengthDelimString r, s, st =>
    let p := uvarint s
    if p.2 = 0 then .error .unexpectedEOF
    else if p.2 < 0 then .error .overflowVarint
    else if (s.drop p.2.toNat).length < p.1 then .error .unexpectedEOF
    else .ok (updateStore st r (.vStr (s.drop p.2.toNat)), s)
  | .bytes16 r, s, st =>
    if s.length < 16 then .error .unexpectedEOF
    else .ok (updateStore st r (.vArr16 (s.take 16)), s)
  | .bytes32 r, s, st =>
    if s.length < 32 then .error .unexpectedEOF
    else .ok (updateStore st r (.vArr32 (s.take 32)), s)

/-- `Encoding.Encode`: the buffer of `Σ Size()` zero bytes after every item
encoded its own slice — the concatenation of the per-item slice contents. -/
def encodingEncode : List Item → Store → List Nat
  | [], _ => []
  | it :: rest, st => (itemEncode it st).1 ++ encodingEncode rest st

/-- `Encoding.Decode` from offset `i`: each item decodes the remaining suffix
`buf[i:]`, the offset then advances by the item's `Size()` recomputed on the
mutated cell. Returns the final store, buffer, offset, and the first error
(`none` when every item succeeded); the first error stops the loop at once. -/
def encodingDecodeFrom : List Item → List Nat → Nat → Store → Store × List Nat × Nat × Option Err
  | [], buf, i, st => (st, buf, i, none)
  | it :: rest, buf, i, st =>
    match itemDecode it (buf.drop i) st with
    | .error e => (st, buf, i, some e)
    | .ok (st', suf') => encodingDecodeFrom rest (buf.take i ++ suf') (i + itemSize it st') st'

/-- `Encoding.Decode`. -/
def encodingDecode (items : List Item) (buf : List Nat) (st : Store) :
    Store × List Nat × Nat × Option Err :=
  encodingDecodeFrom items buf 0 st

/-- C9: for every item kind and every store, `Encode` leaves the bound value
cells unchanged: it reads its cell and produces bytes, but the store after the
call is the store before it. -/
theorem C9_encode_never_mutates (it : Item) (st : Store) : (itemEncode it st).2 = st := by
  cases it <;> rfl

/-- C7: when the items before `it` decode successfully (ending in store `st₁`,
buffer `buf₁`, offset `j`) and `it` itself fails with error `e`, the whole
sequence decode returns exactly `e` and stops at once: the resulting store and
buffer are exactly those from before `it`, so the cells of `it` and of every
later item are untouched. -/
theorem C7_decode_short_circuits (pre : List Item) (it : Item) (post : List Item)
    (buf : List Nat) (i : Nat) (st st₁ : Store) (buf₁ : List Nat) (j : Nat) (e : Err)
    (hpre : encodingDecodeFrom pre buf i st = (st₁, buf₁, j, none))
    (hit : itemDecode it (buf₁.drop j) st₁ = .error e) :
    encodingDecodeFrom (pre ++ it :: post) buf i st = (st₁, buf₁, j, some e) := by
  induction pre generalizing buf i st with
  | nil =>
    simp only [encodingDecodeFrom] at hpre
    obtain ⟨rfl, rfl, rfl⟩ : st = st₁ ∧ buf = buf₁ ∧ i = j :=
      ⟨congrArg (fun p => p.1) hpre, congrArg (fun p => p.2.1) hpre,
        congrArg (fun p => p.2.2.1) hpre⟩
    rw [List.nil_append]
    simp only [encodingDecodeFrom, hit]
  | cons p ps ih =>
    rw [List.cons_append]
    simp only [encodingDecodeFrom] at hpre ⊢
    cases hd : itemDecode p (buf.drop i) st with
    | error e' =>
      rw [hd] at hpre
      exact Option.noConfusion (congrArg (fun p => p.2.2.2) hpre)
    | ok pr =>
      obtain ⟨st', suf'⟩ := pr
      rw [hd] at hpre
      exact ih _ _ _ hpre

/-- C7 witness: an empty prefix, a `byte` item failing on an empty buffer, and
one later item whose cell stays untouched. -/
theorem C7_decode_short_circuits_witness :
    encodingDecodeFrom [Item.byte 0, Item.bool 1] [] 0 (fun _ => Value.vU64 0)
      = (fun _ => Value.vU64 0, [], 0, some Err.unexpectedEOF) :=
  C7_decode_short_circuits [] (Item.byte 0) [Item.bool 1] [] 0 (fun _ => Value.vU64 0)
    (fun _ => Value.vU64 0) [] 0 Err.unexpectedEOF rfl rfl

/-- C4 (the code contradicts it): for the documented example sequence
`[BigEndianUint16, LengthDelimString, Bool]` with `a = 7`, `s = "A"`,
`c = true`, the encoded buffer length does equal the sum of the three sizes,
but the buffer is `[0, 7, 1, 0, 1]` — the string byte `0x41` never reaches it
because `lengthDelimString.Encode` copies `s[n:]` over the front of its slice —
and decoding that buffer into fresh cells sets the string cell to `"\x00\x01"`
(not `"A"`) and then fails with an unexpected-EOF error on the `Bool` item. -/
theorem C4_sequence_roundtrip_fails :
    encodingEncode [Item.bigEndianUint16 0, Item.lengthDelimString 1, Item.bool 2]
        (fun r => if r = 0 then .vU16 7 else if r = 1 then .vStr [65] else .vBool true)
      = [0, 7, 1, 0, 1]
    ∧ (encodingEncode [Item.bigEndianUint16 0, Item.lengthDelimString 1, Item.bool 2]
        (fun r => if r = 0 then .vU16 7 else if r = 1 then .vStr [65] else .vBool true)).length
      = itemSize (Item.bigEndianUint16 0)
          (fun r => if r = 0 then .vU16 7 else if r = 1 then .vStr [65] else .vBool true)
        + itemSize (Item.lengthDelimString 1)
          (fun r => if r = 0 then .vU16 7 else if r = 1 then .vStr [65] else .vBool true)
        + itemSize (Item.bool 2)
          (fun r => if r = 0 then .vU16 7 else if r = 1 then .vStr [65] else .vBool true)
    ∧ (encodingDecode [Item.bigEndianUint16 0, Item.lengthDelimString 1, Item.bool 2]
          [0, 7, 1, 0, 1]
          (fun r => if r = 0 then .vU16 0 else if r = 1 then .vStr [] else .vBool false)).1 1
      = Value.vStr [0, 1]
    ∧ (encodingDecode [Item.bigEndianUint16 0, Item.lengthDelimString 1, Item.bool 2]
          [0, 7, 1, 0, 1]
          (fun r => if r = 0 then .vU16 0 else if r = 1 then .vStr [] else .vBool false)).2.2.2
      = some Err.unexpectedEOF :=
  ⟨rfl, rfl, rfl, rfl⟩

/-- C5 (the code contradicts it): the bytes produced by `lengthDelimBytes`
for `v = [0x41]` are `[0x01, 0x00]`, not the documented varint length prefix
followed by the raw bytes (`[0x01, 0x41]`): the `copy` in `Encode` starts at
offset 0 instead of after the prefix. -/
theorem C5_lengthDelim_layout_fails :
    lengthDelimBytesEncode [65] = [1, 0]
    ∧ lengthDelimBytesEncode [65] ≠ putUvarint ([65] : List Nat).length ++ [65] :=
  ⟨rfl, by decide⟩

/-- C6 (the code contradicts it): the valid 3-byte encoding of
`v = [0xAA, 0x00]` under `lengthDelimBytes` is `[0x00, 0x00, 0x00]`; truncated
to its 1-byte prefix `[0x00]`, `Decode` does not return an insufficient-data
error but succeeds, silently producing the wrong value `[]`. -/
theorem C6_truncation_not_detected :
    lengthDelimBytesEncode [170, 0] = [0, 0, 0]
    ∧ lengthDelimBytesDecode ((lengthDelimBytesEncode [170, 0]).take 1) = .ok [] :=
  ⟨rfl, rfl⟩

/-! ### Correctness of the conventional varint pair, for C10 -/

theorem putUvarintAux_length_pos (f x : Nat) : 1 ≤ (putUvarintAux f x).length := by
  cases f with
  | zero => simp [putUvarintAux]
  | succ f =>
    simp only [putUvarintAux]
    split <;> simp

theorem putUvarintAux_length_le (f x : Nat) : (putUvarintAux f x).length ≤ f + 1 := by
  induction f generalizing x with
  | zero => simp [putUvarintAux]
  | succ f ih =>
    simp only [putUvarintAux]
    split
    · simp
    · simp only [List.length_cons]
      have := ih (x / 128)
      omega

theorem uvarintAux_putUvarintAux (f : Nat) :
    ∀ i x v, 1 ≤ f → i + f = 10 → v < 2 ^ (64 - 7 * i) → x < 2 ^ (7 * i) →
      uvarintAux (putUvarintAux f v) x (7 * i) i
        = (x + v * 2 ^ (7 * i), (i : Int) + (putUvarintAux f v).length) := by
  induction f with
  | zero =>
    intro i x v hf
    omega
  | succ f ih =>
    intro i x v _ hif hv hx
    have hi9 : i ≤ 9 := by omega
    simp only [putUvarintAux]
    by_cases hsm : v < 128
    · rw [if_pos hsm]
      simp only [uvarintAux]
      rw [if_neg (by omega), if_pos hsm, if_neg (by
        rintro ⟨h9, hv1⟩
        rw [h9] at hv
        norm_num at hv
        omega)]
      have hsh : v <<< (7 * i) % 2 ^ 64 = v * 2 ^ (7 * i) := by
        rw [Nat.shiftLeft_eq, Nat.mod_eq_of_lt]
        calc v * 2 ^ (7 * i) < 2 ^ (64 - 7 * i) * 2 ^ (7 * i) :=
              (Nat.mul_lt_mul_right (Nat.two_pow_pos _)).mpr hv
          _ = 2 ^ 64 := by
              rw [← Nat.pow_add]
              congr 1
              omega
      rw [hsh, Nat.lor_comm, lor_mul_pow_add hx, Nat.add_comm]
      simp
    · rw [if_neg hsm]
      simp only [uvarintAux]
      rw [if_neg (by omega), if_neg (by omega)]
      have hi8 : i ≤ 8 := by
        by_contra h
        have h9 : i = 9 := by omega
        rw [h9] at hv
        norm_num at hv
        omega
      have hand : (v % 128 + 128) &&& 127 = v % 128 := by
        rw [show (127 : Nat) = 2 ^ 7 - 1 from by norm_num, Nat.and_pow_two_sub_one_eq_mod]
        omega
      have hsh : (v % 128) <<< (7 * i) % 2 ^ 64 = (v % 128) * 2 ^ (7 * i) := by
        rw [Nat.shiftLeft_eq, Nat.mod_eq_of_lt]
        calc (v % 128) * 2 ^ (7 * i) < 128 * 2 ^ (7 * i) :=
              (Nat.mul_lt_mul_right (Nat.two_pow_pos _)).mpr (by omega)
          _ ≤ 2 ^ 64 := by
              rw [show (128 : Nat) = 2 ^ 7 from by norm_num, ← Nat.pow_add]
              exact Nat.pow_le_pow_right (by omega) (by omega)
      rw [hand, hsh, Nat.lor_comm, lor_mul_pow_add hx]
      have h2 : (128 : Nat) * 2 ^ (7 * i) = 2 ^ (7 * (i + 1)) := by
        rw [show (128 : Nat) = 2 ^ 7 from by norm_num, ← Nat.pow_add]
        congr 1
        ring
      have hx' : v % 128 * 2 ^ (7 * i) + x < 2 ^ (7 * (i + 1)) := by
        have h1 : (v % 128 + 1) * 2 ^ (7 * i) ≤ 128 * 2 ^ (7 * i) :=
          Nat.mul_le_mul_right _ (by omega)
        have h0 : (v % 128 + 1) * 2 ^ (7 * i) = v % 128 * 2 ^ (7 * i) + 2 ^ (7 * i) := by
          ring
        omega
      have hv' : v / 128 < 2 ^ (64 - 7 * (i + 1)) := by
        rw [Nat.div_lt_iff_lt_mul (by omega)]
        have hpe : 2 ^ (64 - 7 * (i + 1)) * 128 = 2 ^ (64 - 7 * i) := by
          rw [show (128 : Nat) = 2 ^ 7 from by norm_num, ← Nat.pow_add]
          congr 1
          omega
        omega
      rw [show 7 * i + 7 = 7 * (i + 1) from by ring,
        ih (i + 1) (v % 128 * 2 ^ (7 * i) + x) (v / 128) (by omega) (by omega) hv' hx',
        Prod.mk.injEq]
      constructor
      · have hqm : 128 * (v / 128) + v % 128 = v := Nat.div_add_mod v 128
        have hpow : 2 ^ (7 * (i + 1)) = 2 ^ (7 * i) * 128 := by
          rw [show 7 * (i + 1) = 7 * i + 7 from by ring, Nat.pow_add]
        rw [hpow]
        have hkey : v * 2 ^ (7 * i)
            = v % 128 * 2 ^ (7 * i) + v / 128 * (2 ^ (7 * i) * 128) := by
          conv_lhs => rw [← hqm]
          ring
        omega
      · simp only [List.length_cons]
        push_cast
        ring

theorem uvarint_putUvarint {v : Nat} (hv : v < 2 ^ 64) :
    uvarint (putUvarint v) = (v, ((putUvarint v).length : Int)) := by
  have h := uvarintAux_putUvarintAux 10 0 0 v (by omega) (by omega)
    (by simpa using hv) (by norm_num)
  simpa [uvarint, putUvarint] using h

/-- C10: for every `v` in `[2^32, 2^64)`, decoding the conventional varint
encoding of `v` with the `Uvarint32` item succeeds — its overflow guard
compares the byte count `n`, never the decoded value, against
`math.MaxUint32` — and stores `v mod 2^32` in the bound `uint32` cell. -/
theorem C10_uvarint32_truncates (v r : Nat) (st : Store) (h32 : 2 ^ 32 ≤ v)
    (h64 : v < 2 ^ 64) :
    itemDecode (Item.uvarint32 r) (putUvarint v) st
      = .ok (updateStore st r (.vU32 (v % 2 ^ 32)), putUvarint v) := by
  have hu := uvarint_putUvarint h64
  have hlen1 : 1 ≤ (putUvarint v).length := putUvarintAux_length_pos 10 v
  have hlen10 : (putUvarint v).length ≤ 11 := putUvarintAux_length_le 10 v
  simp only [itemDecode, hu]
  rw [if_neg (by exact_mod_cast by omega), if_neg (by exact_mod_cast by omega),
    if_neg (by exact_mod_cast by omega)]

/-- C10 witness at `v = 2^32`. -/
theorem C10_uvarint32_truncates_witness :
    itemDecode (Item.uvarint32 0) (putUvarint (2 ^ 32)) (fun _ => Value.vU32 0)
      = .ok (updateStore (fun _ => Value.vU32 0) 0 (.vU32 (2 ^ 32 % 2 ^ 32)),
          putUvarint (2 ^ 32)) :=
  C10_uvarint32_truncates (2 ^ 32) 0 (fun _ => Value.vU32 0) (Nat.le_refl _) (by norm_num)

/-! ### The order-preserving signed varint `OrdVarint64` (spec-modelled) -/

/-- Modelled from the spec: the repository's tests exercise an `OrdVarint64`
item whose implementation is not under `src/`. Spec §4.4 describes `n`-byte
forms for `n` from 1 up to 8, each holding the low `7n-1` bits of the
two's-complement representation; this gives the byte count: the least `n` with
`-2^(7n-2) ≤ x < 2^(7n-2)`, the 8-byte capacity being `[-2^54, 2^54-1]`. -/
def ordVarint64NumBytes (x : Int) : Nat :=
  if -(2 ^ 6) ≤ x ∧ x < 2 ^ 6 then 1
  else if -(2 ^ 13) ≤ x ∧ x < 2 ^ 13 then 2
  else if -(2 ^ 20) ≤ x ∧ x < 2 ^ 20 then 3
  else if -(2 ^ 27) ≤ x ∧ x < 2 ^ 27 then 4
  else if -(2 ^ 34) ≤ x ∧ x < 2 ^ 34 then 5
  else if -(2 ^ 41) ≤ x ∧ x < 2 ^ 41 then 6
  else if -(2 ^ 48) ≤ x ∧ x < 2 ^ 48 then 7
  else 8

/-- Modelled from the spec: `OrdVarint64.Encode` (implementation absent from
`src/`, only its tests exist). Spec §4.4: a value within the 8-byte capacity
is packed big-endian into `n = ordVarint64NumBytes x` bytes as a unary run of
`n` bits equal to the sign bit (1 for non-negative, 0 for negative), one
terminator bit of the opposite value, and the low `7n-1` bits of the
two's-complement representation of `x`; values outside use a 9-byte escape:
a marker byte `0xFF` (non-negative) or `0x00` (negative) followed by the
8-byte big-endian encoding of `x + 2^63`. -/
def ordVarint64Encode (x : Int) : List Nat :=
  if -(2 ^ 54) ≤ x ∧ x < 2 ^ 54 then
    natToBytesBE (ordVarint64NumBytes x)
      ((if 0 ≤ x then 2 ^ (ordVarint64NumBytes x + 1) - 2 else 1)
          * 2 ^ (7 * ordVarint64NumBytes x - 1)
        + (x % ((2 ^ (7 * ordVarint64NumBytes x - 1) : Nat) : Int)).toNat)
  else
    (if 0 ≤ x then 255 else 0) :: natToBytesBE 8 ((x + 2 ^ 63).toNat)

/-- C8: the spec-modelled order-preserving signed varint reproduces every
worked example bit-exactly: `63 ↦ BF`, `64 ↦ C0 40`, `-64 ↦ 40`,
`-65 ↦ 3F BF`, `-2^63 ↦ 00 ×9`, `2^63-1 ↦ FF ×9`. -/
theorem C8_ordVarint64_examples :
    ordVarint64Encode 63 = [0xBF] ∧ ordVarint64Encode 64 = [0xC0, 0x40]
    ∧ ordVarint64Encode (-64) = [0x40] ∧ ordVarint64Encode (-65) = [0x3F, 0xBF]
    ∧ ordVarint64Encode (-(2 ^ 63)) = List.replicate 9 0x00
    ∧ ordVarint64Encode (2 ^ 63 - 1) = List.replicate 9 0xFF := by
  refine ⟨by decide, by decide, by decide, by decide, by decide, by decide⟩

end Encode
